import Mathlib

/-!
# V30 monitor (Raspberry Pi Pico) — verification of the bus-cycle engine,
# the trace log and the XMODEM transfer code

Shallow embedding of the monitor's core (the `core1_entry` bus driver, the
trace log, `crc16_ccitt`, `xmodem_send` / `xmodem_receive` and the HIDOS
`io_disk` handler) as executable Lean functions, together with theorems about
the claims of the specification.

Modelling conventions:
* machine integers are `Nat` with explicit masking (`&&& 0xFFFF`, `% 256`)
  exactly where the C types truncate;
* the emulated RAM is a total function `Nat → Nat`; the engine only ever
  addresses it through `map_address`;
* one driven bus cycle is a `Stim` record carrying what the engine latches
  and samples from the pins (address, memory/IO indicator, read/write
  strobe, BHE level, driven data); a run processes a list of such cycles,
  the end of the list standing for the ALE timeout that ends a run;
* the serial link of the XMODEM code is a byte list: `_inbyte` consumes the
  head, an empty list is a timeout; written bytes are accumulated in order;
* the embedding follows the current revision of the monitor (the one with
  `RAM_SIZE = 0x20000` and `MAX_CYCLES = 4000`); an earlier revision differs
  in the odd-address byte-lane write and in the read alignment.
-/

namespace Cradle86

set_option maxRecDepth 8000

/-- `RAM_SIZE` of the monitor source: 128KB virtual RAM (`0x20000`). -/
def RAM_SIZE : Nat := 0x20000

/-- `MAX_CYCLES` of the monitor source: capacity of the trace log. -/
def MAX_CYCLES : Nat := 4000

/-- XMODEM control byte `SOH` (start of header). -/
def SOH : Nat := 0x01

/-- XMODEM control byte `EOT` (end of transmission). -/
def EOT : Nat := 0x04

/-- XMODEM control byte `ACK` (acknowledge). -/
def ACK : Nat := 0x06

/-- XMODEM control byte `NAK` (negative acknowledge). -/
def NAK : Nat := 0x15

/-- XMODEM control byte `CAN` (cancel). -/
def CAN : Nat := 0x18

/-- The emulated RAM, a byte per address. -/
abbrev Ram := Nat → Nat

/-- A single byte store `ram[i] = v`. -/
def ramSet (r : Ram) (i v : Nat) : Ram := fun j => if j = i then v else r j

/-- `map_address`: `v30_addr & (RAM_SIZE - 1)` — the 20-bit physical address
wraps into the RAM array. -/
def map_address (v30_addr : Nat) : Nat := v30_addr &&& (RAM_SIZE - 1)

/-- `LogType` values of the source (`LOG_UNUSED = 0` is the ring sentinel). -/
def LOG_UNUSED : Nat := 0

/-- `LOG_MEM_RD` of the source. -/
def LOG_MEM_RD : Nat := 1

/-- `LOG_MEM_WR` of the source. -/
def LOG_MEM_WR : Nat := 2

/-- `LOG_IO_RD` of the source. -/
def LOG_IO_RD : Nat := 3

/-- `LOG_IO_WR` of the source. -/
def LOG_IO_WR : Nat := 4

/-- One `BusLog` record: `{uint32_t address; uint16_t data; uint8_t type;
uint8_t ctrl;}`. -/
structure BusLog where
  address : Nat
  data : Nat
  type : Nat
  ctrl : Nat
deriving DecidableEq, Repr

/-- The cleared (memset-0) `BusLog` entry: the `Unused` sentinel. -/
def unusedLog : BusLog := ⟨0, 0, 0, 0⟩

/-- The trace ring after a run that appended `entries`: the ring was cleared
to all-`Unused` before the run, so index `i` holds the `i`-th appended entry
and `unusedLog` past the appended prefix. -/
def ring (entries : List BusLog) (i : Nat) : BusLog := entries.getD i unusedLog

/-- The `LoggingMode` of `core1_entry` (selected by the core-1 command). -/
inductive LogMode where
  | NO_LOG
  | IO_LOG
  | FULL_LOG
  | COM_LOG
deriving DecidableEq, Repr

/-- One driven bus cycle as the engine observes it: the latched 20-bit
address, the memory/IO indicator (`is_io`), whether the read or the write
strobe fell, the BHE level sampled with the strobe (`bhe_low` is
`!(pins & (1 << PIN_BHE))`), and the 16-bit data the processor drives on a
write. -/
structure Stim where
  addr : Nat
  is_io : Bool
  is_read : Bool
  bhe_low : Bool
  data : Nat
deriving DecidableEq, Repr

/-- The byte-lane write of the engine's write-strobe path (`core1_entry`,
memory cycle): `bhe_low`/`a0_low` select which of the two RAM bytes receive
the low and high byte of the sampled word. -/
def mem_write (ram : Ram) (addr in_data : Nat) (bhe_low : Bool) : Ram :=
  let a0_low : Bool := addr &&& 1 == 0
  if bhe_low && a0_low then
    ramSet (ramSet ram (map_address addr) (in_data &&& 0xFF))
      (map_address (addr + 1)) (in_data >>> 8)
  else if bhe_low && !a0_low then
    ramSet ram (map_address addr) (in_data >>> 8)
  else if !bhe_low && a0_low then
    ramSet ram (map_address addr) (in_data &&& 0xFF)
  else
    ram

/-- The data the engine drives on a read cycle: `0xFFFF` for an I/O cycle,
otherwise the two RAM bytes at the word-aligned (`addr & ~1`, on a 32-bit
address) mapped address. -/
def read_cycle_data (ram : Ram) (s : Stim) : Nat :=
  if s.is_io then 0xFFFF
  else
    let aligned := s.addr &&& 0xFFFFFFFE
    ram (map_address aligned) ||| (ram (map_address (aligned + 1)) <<< 8)

/-- The log filter of `core1_entry`: `FULL_LOG` logs everything, `IO_LOG`
only I/O cycles, `COM_LOG` only I/O cycles at port `0x2F8`. -/
def should_log (m : LogMode) (is_io : Bool) (addr : Nat) : Bool :=
  (m == .FULL_LOG) || (m == .IO_LOG && is_io) ||
    (m == .COM_LOG && is_io && addr == 0x2F8)

/-- The `ctrl` byte of a log entry: bit 0 set when BHE was low. -/
def ctrl_flags (bhe_low : Bool) : Nat := if bhe_low then 1 else 0

/-- One completed bus cycle of `core1_entry`: the new RAM, the 16-bit word
on the data bus (driven on a read, sampled on a write), and the log entry
appended by the filter, if any. -/
def run_step (m : LogMode) (ram : Ram) (s : Stim) : Ram × Nat × Option BusLog :=
  if s.is_read then
    let out_data := read_cycle_data ram s
    let entry : Option BusLog :=
      if m != .NO_LOG && should_log m s.is_io s.addr then
        some ⟨s.addr, out_data, if s.is_io then LOG_IO_RD else LOG_MEM_RD,
          ctrl_flags s.bhe_low⟩
      else none
    (ram, out_data, entry)
  else
    let in_data := s.data &&& 0xFFFF
    let ram' := if s.is_io then ram else mem_write ram s.addr in_data s.bhe_low
    let entry : Option BusLog :=
      if m != .NO_LOG && should_log m s.is_io s.addr then
        some ⟨s.addr, in_data, if s.is_io then LOG_IO_WR else LOG_MEM_WR,
          ctrl_flags s.bhe_low⟩
      else none
    (ram', in_data, entry)

/-- The bus-sniffing loop of `core1_entry` (stop flag never raised): at the
top of each iteration the run ends when `bus_cycles` reaches the cycle
limit or, in a logging mode, when the ring is full; otherwise the next
driven cycle (if any — an empty list is the ALE timeout) is processed,
`bus_cycles` is incremented and the filtered log entry appended. Returns
the final RAM, the appended log entries in order, and `bus_cycles` (the
engine's reported `executed_cycles`). -/
def run_loop (m : LogMode) (cycle_limit : Nat) :
    List Stim → Ram → List BusLog → Nat → Ram × List BusLog × Nat
  | [], ram, log, bus_cycles => (ram, log, bus_cycles)
  | s :: rest, ram, log, bus_cycles =>
    if cycle_limit ≤ bus_cycles then (ram, log, bus_cycles)
    else if m ≠ .NO_LOG ∧ MAX_CYCLES ≤ log.length then (ram, log, bus_cycles)
    else
      let r := run_step m ram s
      run_loop m cycle_limit rest r.1 (log ++ r.2.2.toList) (bus_cycles + 1)

/-! ## Basic facts about the address map and the byte lanes -/

theorem map_address_eq_mod (a : Nat) : map_address a = a % RAM_SIZE := by
  have h : RAM_SIZE - 1 = 2 ^ 17 - 1 := by decide
  simp only [map_address, h, Nat.and_pow_two_sub_one_eq_mod]
  norm_num [RAM_SIZE]

theorem map_address_succ_ne (a : Nat) : map_address a ≠ map_address (a + 1) := by
  rw [map_address_eq_mod, map_address_eq_mod]
  show a % 131072 ≠ (a + 1) % 131072
  omega

/-- C1: byte-lane precision of an observed memory write, as `core1_entry`
applies it. Both byte-enable (BHE) and address bit 0 low: the byte at
`map_address a` becomes the low byte of `d` and the byte at
`map_address (a+1)` the high byte; BHE low, bit 0 high: only the byte at
`map_address a` (the odd address) becomes the high byte; BHE high, bit 0
low: only the byte at `map_address a` becomes the low byte; both high:
RAM is unchanged. The final conjunct ties `mem_write` to the engine's
write-strobe path. -/
theorem C1_mem_write_byte_lanes (ram : Ram) (a d : Nat) (b : Bool)
    (hd : d < 0x10000) :
    ((b = true ∧ a % 2 = 0) →
      mem_write ram a d b (map_address a) = d % 256 ∧
      mem_write ram a d b (map_address (a + 1)) = d / 256 ∧
      ∀ j, j ≠ map_address a → j ≠ map_address (a + 1) →
        mem_write ram a d b j = ram j) ∧
    ((b = true ∧ a % 2 = 1) →
      mem_write ram a d b (map_address a) = d / 256 ∧
      ∀ j, j ≠ map_address a → mem_write ram a d b j = ram j) ∧
    ((b = false ∧ a % 2 = 0) →
      mem_write ram a d b (map_address a) = d % 256 ∧
      ∀ j, j ≠ map_address a → mem_write ram a d b j = ram j) ∧
    ((b = false ∧ a % 2 = 1) → ∀ j, mem_write ram a d b j = ram j) ∧
    (∀ (m : LogMode) (s : Stim), s.is_read = false → s.is_io = false →
      (run_step m ram s).1 = mem_write ram s.addr (s.data &&& 0xFFFF) s.bhe_low) := by
  have hand : a &&& 1 = a % 2 := Nat.and_one_is_mod a
  have hlow : d &&& 0xFF = d % 256 := Nat.and_pow_two_sub_one_eq_mod d 8
  have hhigh : d >>> 8 = d / 256 := Nat.shiftRight_eq_div_pow d 8
  refine ⟨?_, ?_, ?_, ?_, ?_⟩
  · rintro ⟨hb, ha⟩
    subst hb
    have hne := map_address_succ_ne a
    refine ⟨?_, ?_, ?_⟩
    · simp [mem_write, hand, ha, hlow, ramSet, hne]
    · simp [mem_write, hand, ha, hhigh, ramSet]
    · intro j h1 h2
      simp [mem_write, hand, ha, ramSet, h1, h2]
  · rintro ⟨hb, ha⟩
    subst hb
    refine ⟨?_, ?_⟩
    · simp [mem_write, hand, ha, hhigh, ramSet]
    · intro j h1
      simp [mem_write, hand, ha, ramSet, h1]
  · rintro ⟨hb, ha⟩
    subst hb
    refine ⟨?_, ?_⟩
    · simp [mem_write, hand, ha, hlow, ramSet]
    · intro j h1
      simp [mem_write, hand, ha, ramSet, h1]
  · rintro ⟨hb, ha⟩
    subst hb
    intro j
    simp [mem_write, hand, ha]
  · intro m s h1 h2
    simp [run_step, h1, h2]

/-- Witness for `C1_mem_write_byte_lanes` at `a = 4`, `d = 0xBEEF`,
BHE low: the even byte receives `0xEF`, the odd byte `0xBE`. -/
theorem C1_witness :
    mem_write (fun _ => 0) 4 0xBEEF true (map_address 4) = 0xEF ∧
    mem_write (fun _ => 0) 4 0xBEEF true (map_address 5) = 0xBE := by
  have h := C1_mem_write_byte_lanes (fun _ => 0) 4 0xBEEF true (by decide)
  have h1 := h.1 ⟨rfl, by decide⟩
  exact ⟨h1.1, by simpa using h1.2.1⟩

/-- C8: on a memory read cycle the engine drives the 16-bit word formed from
the two consecutive RAM bytes at the word-aligned mapped address
(`addr & ~1`): low byte from `map_address (a &&& ~1)`, high byte from
`map_address ((a &&& ~1) + 1)`. The driven word does not depend on the BHE
level, nor on address bit 0 (any stimulus with the same word-aligned address
drives the same word), and the RAM is unchanged. -/
theorem C8_read_drives_aligned_word (m : LogMode) (ram : Ram) (s : Stim)
    (h1 : s.is_read = true) (h2 : s.is_io = false) :
    (run_step m ram s).2.1 =
      (ram (map_address (s.addr &&& 0xFFFFFFFE)) |||
        (ram (map_address ((s.addr &&& 0xFFFFFFFE) + 1)) <<< 8)) ∧
    (∀ b, read_cycle_data ram { s with bhe_low := b } = read_cycle_data ram s) ∧
    (∀ t : Stim, t.is_io = false →
      t.addr &&& 0xFFFFFFFE = s.addr &&& 0xFFFFFFFE →
      read_cycle_data ram t = read_cycle_data ram s) ∧
    (run_step m ram s).1 = ram := by
  refine ⟨?_, ?_, ?_, ?_⟩
  · simp [run_step, read_cycle_data, h1, h2]
  · intro b
    rfl
  · intro t ht haddr
    simp [read_cycle_data, ht, h2, haddr]
  · simp [run_step, h1]

/-- Witness for `C8_read_drives_aligned_word`: a read at the odd address 7
drives the word assembled from the bytes at 6 and 7. -/
theorem C8_witness :
    (run_step .NO_LOG
        (fun j => if j = 6 then 0x34 else if j = 7 then 0x12 else 0)
        ⟨7, false, true, false, 0⟩).2.1 = 0x1234 := by
  have h := (C8_read_drives_aligned_word .NO_LOG
    (fun j => if j = 6 then 0x34 else if j = 7 then 0x12 else 0)
    ⟨7, false, true, false, 0⟩ rfl rfl).1
  rw [h]
  decide

/-- C9 counterexample. The claim's case split disagrees with the code on
two of the four BHE / address-bit-0 combinations, shown here on an all-zero
RAM at address 1 (bit 0 set): with byte-enable deasserted (BHE high) the
claim says only the byte at address 1 changes, but the engine writes nothing
(first conjunct: every byte still 0 after writing `0xFF`); with byte-enable
asserted (BHE low) the claim says only the byte at address 2 (`a+1`)
changes, but the engine sets the byte at address 1 itself to the high byte
of the data and leaves address 2 alone (second and third conjuncts). -/
theorem C9_counterexample :
    (∀ j, mem_write (fun _ => 0) 1 0xFF false j = 0) ∧
    mem_write (fun _ => 0) 1 0xAB00 true (map_address 1) = 0xAB ∧
    mem_write (fun _ => 0) 1 0xAB00 true (map_address 2) = 0 := by
  exact ⟨fun j => rfl, by decide, by decide⟩

/-- C9 as amended to the behaviour of the code (BHE asserted means the
`BHE#` pin is low, `bhe_low = true`): asserted and bit 0 clear — the bytes
at `map_address a` and `map_address (a+1)` receive the low and high byte of
the data; deasserted and bit 0 clear — only the byte at `map_address a`
receives the low byte; asserted and bit 0 set — only the byte at
`map_address a` (the odd address itself) receives the high byte; deasserted
and bit 0 set — the invalid combination, RAM is unchanged. -/
theorem C9_amended_byte_lanes (ram : Ram) (a d : Nat) (hd : d < 0x10000) :
    (a % 2 = 0 →
      mem_write ram a d true =
        ramSet (ramSet ram (map_address a) (d % 256))
          (map_address (a + 1)) (d / 256) ∧
      mem_write ram a d false = ramSet ram (map_address a) (d % 256)) ∧
    (a % 2 = 1 →
      mem_write ram a d true = ramSet ram (map_address a) (d / 256) ∧
      mem_write ram a d false = ram) := by
  have hand : a &&& 1 = a % 2 := Nat.and_one_is_mod a
  have hlow : d &&& 0xFF = d % 256 := Nat.and_pow_two_sub_one_eq_mod d 8
  have hhigh : d >>> 8 = d / 256 := Nat.shiftRight_eq_div_pow d 8
  constructor
  · intro ha
    constructor
    · simp [mem_write, hand, ha, hlow, hhigh]
    · simp [mem_write, hand, ha, hlow]
  · intro ha
    constructor
    · simp [mem_write, hand, ha, hhigh]
    · simp [mem_write, hand, ha]

/-- Witness for `C9_amended_byte_lanes`: an even-address write with BHE
deasserted updates exactly the low byte. -/
theorem C9_amended_witness :
    mem_write (fun _ => 5) 2 0x1234 false =
      ramSet (fun _ => 5) (map_address 2) (0x1234 % 256) :=
  ((C9_amended_byte_lanes (fun _ => 5) 2 0x1234 (by decide)).1 (by decide)).2

/-! ## The CRC of the transfer protocol -/

/-- One shift round of `crc16_ccitt`, on the 16-bit accumulator:
`crc = (crc & 0x8000) ? (crc << 1) ^ 0x1021 : crc << 1` with uint16
truncation. -/
def crc_shift (crc : Nat) : Nat :=
  if crc &&& 0x8000 != 0 then ((crc <<< 1) ^^^ 0x1021) &&& 0xFFFF
  else (crc <<< 1) &&& 0xFFFF

/-- One byte step of `crc16_ccitt`: `crc ^= *buf++ << 8` (uint16), then the
8-round shift loop. -/
def crc_byte (crc b : Nat) : Nat := crc_shift^[8] ((crc ^^^ (b <<< 8)) &&& 0xFFFF)

/-- The `while (len--)` loop of `crc16_ccitt` over the remaining buffer. The
inner match forces the accumulator at each iteration, mirroring the strict
evaluation of the C loop (it is the identity on the result of `crc_byte`). -/
def crc16_go : List Nat → Nat → Nat
  | [], crc => crc
  | b :: rest, crc =>
    match crc_byte crc b with
    | 0 => crc16_go rest 0
    | m + 1 => crc16_go rest (m + 1)

/-- `crc16_ccitt`: accumulator starts at 0 and each buffer byte is folded
in by `crc_byte`. -/
def crc16_ccitt (buf : List Nat) : Nat := crc16_go buf 0

theorem crc16_go_cons (b : Nat) (rest : List Nat) (crc : Nat) :
    crc16_go (b :: rest) crc = crc16_go rest (crc_byte crc b) := by
  rw [crc16_go.eq_def]
  rcases h : crc_byte crc b with _ | m <;> simp [h]

/-- The CRC as the specification words it (reference definition for the
refinement claim): 16-bit accumulator, initial value 0, polynomial `0x1021`,
most significant bit first; each byte is XORed into the high byte of the
accumulator, then 8 times the accumulator is doubled modulo `2^16`, the
polynomial being XORed in when the bit shifted out was set. -/
def crc16_spec_step (acc : Nat) : Nat :=
  let shifted := acc * 2 % 65536
  if 32768 ≤ acc % 65536 then Nat.xor shifted 0x1021 else shifted

/-- One byte of the specification's CRC. -/
def crc16_spec_byte (acc b : Nat) : Nat :=
  crc16_spec_step^[8] (Nat.xor acc (b * 256) % 65536)

/-- The specification's CRC over a buffer. -/
def crc16_spec (buf : List Nat) : Nat := buf.foldl crc16_spec_byte 0

theorem and_mask16_eq_mod (y : Nat) : y &&& 65535 = y % 65536 := by
  have h := Nat.and_pow_two_sub_one_eq_mod y 16
  norm_num at h
  exact h

theorem crc_shift_eq_spec (x : Nat) (hx : x < 65536) :
    crc_shift x = crc16_spec_step x ∧ crc_shift x < 65536 := by
  have hbit : x &&& 0x8000 = (x.testBit 15).toNat * 2 ^ 15 := Nat.and_two_pow x 15
  have htb : x.testBit 15 = decide (x / 2 ^ 15 % 2 = 1) := Nat.testBit_to_div_mod
  have hp : (2 : Nat) ^ 15 = 32768 := by norm_num
  have hsh : x <<< 1 = x * 2 := by
    rw [Nat.shiftLeft_eq]
  have hx8 : x &&& 0x8000 = if 32768 ≤ x then 32768 else 0 := by
    rw [hbit, htb, hp]
    rcases Nat.lt_or_ge x 32768 with h | h
    · have hdiv : x / 32768 % 2 = 0 := by omega
      rw [hdiv, if_neg (Nat.not_le.mpr h)]
      norm_num
    · have hdiv : x / 32768 % 2 = 1 := by omega
      rw [hdiv, if_pos h]
      norm_num
  have hxmod : x % 65536 = x := Nat.mod_eq_of_lt hx
  constructor
  · unfold crc_shift crc16_spec_step
    rcases Nat.lt_or_ge x 32768 with h | h
    · have hc : (x &&& 0x8000 != 0) = false := by
        rw [hx8]
        simp [Nat.not_le.mpr h]
      rw [hc]
      simp only [Bool.false_eq_true, if_false, hsh, and_mask16_eq_mod, hxmod]
      rw [if_neg (by omega)]
    · have hc : (x &&& 0x8000 != 0) = true := by
        rw [hx8]
        simp [h]
      rw [hc]
      simp only [if_true, hsh, hxmod]
      rw [if_pos (by omega), Nat.and_xor_distrib_right, and_mask16_eq_mod,
        and_mask16_eq_mod]
      norm_num
      rfl
  · unfold crc_shift
    split
    · rw [and_mask16_eq_mod]
      exact Nat.mod_lt _ (by norm_num)
    · rw [and_mask16_eq_mod]
      exact Nat.mod_lt _ (by norm_num)

theorem crc_shift_iter_eq_spec (n : Nat) :
    ∀ x : Nat, x < 65536 →
      crc_shift^[n] x = crc16_spec_step^[n] x ∧ crc_shift^[n] x < 65536 := by
  induction n with
  | zero => intro x hx; exact ⟨rfl, hx⟩
  | succ n ih =>
    intro x hx
    rw [Function.iterate_succ_apply, Function.iterate_succ_apply]
    obtain ⟨heq, hlt⟩ := crc_shift_eq_spec x hx
    rw [heq] at hlt ⊢
    exact ih _ hlt

theorem crc_byte_eq_spec (acc b : Nat) (hacc : acc < 65536) :
    crc_byte acc b = crc16_spec_byte acc b ∧ crc_byte acc b < 65536 := by
  unfold crc_byte crc16_spec_byte
  have hmask : (acc ^^^ (b <<< 8)) &&& 0xFFFF = Nat.xor acc (b * 256) % 65536 := by
    rw [and_mask16_eq_mod, Nat.shiftLeft_eq]
    norm_num
    rfl
  rw [hmask]
  exact crc_shift_iter_eq_spec 8 _ (Nat.mod_lt _ (by norm_num))

theorem crc16_fold_eq_spec (buf : List Nat) :
    ∀ acc : Nat, acc < 65536 →
      crc16_go buf acc = buf.foldl crc16_spec_byte acc := by
  induction buf with
  | nil => intro acc _; rfl
  | cons b rest ih =>
    intro acc hacc
    obtain ⟨heq, hlt⟩ := crc_byte_eq_spec acc b hacc
    rw [crc16_go_cons, heq, List.foldl_cons]
    rw [heq] at hlt
    exact ih _ hlt

/-- C5: `crc16_ccitt` is the CCITT/XMODEM CRC-16 the specification
describes (it agrees with the independently written reference definition
`crc16_spec` on every buffer), it is deterministic, and the 128-byte
all-zero block has CRC 0. -/
theorem C5_crc16_ccitt_correct :
    (∀ buf : List Nat, crc16_ccitt buf = crc16_spec buf) ∧
    (∀ xs ys : List Nat, xs = ys → crc16_ccitt xs = crc16_ccitt ys) ∧
    crc16_ccitt (List.replicate 128 0) = 0 := by
  refine ⟨?_, ?_, ?_⟩
  · intro buf
    exact crc16_fold_eq_spec buf 0 (by norm_num)
  · intro xs ys h
    rw [h]
  · decide

/-! ## Run loop: cycle limit and log filter -/

theorem run_step_toList_le (m : LogMode) (ram : Ram) (s : Stim) :
    (run_step m ram s).2.2.toList.length ≤ 1 := by
  rcases (run_step m ram s).2.2 with _ | e <;> simp

/-- Whatever the mode, every entry the engine appends to the ring carries a
real cycle kind, never the `Unused` sentinel. -/
theorem run_step_entry_ne_unused (m : LogMode) (ram : Ram) (s : Stim)
    (e : BusLog) (h : (run_step m ram s).2.2 = some e) :
    e.type ≠ LOG_UNUSED := by
  rcases hr : s.is_read with _ | _ <;> rcases hio : s.is_io with _ | _ <;>
    simp [run_step, hr, hio] at h <;>
    (rcases h with ⟨hcond, rfl⟩
     simp [LOG_MEM_RD, LOG_MEM_WR, LOG_IO_RD, LOG_IO_WR, LOG_UNUSED])

/-- Entries appended during a run all satisfy `P`, provided every entry a
single step can append does. -/
theorem run_loop_entries_prop (m : LogMode) (N : Nat) (P : BusLog → Prop)
    (hstep : ∀ ram s e, (run_step m ram s).2.2 = some e → P e) :
    ∀ (stims : List Stim) (ram : Ram) (log : List BusLog) (bus : Nat),
      (∀ e ∈ log, P e) →
      ∀ e ∈ (run_loop m N stims ram log bus).2.1, P e := by
  intro stims
  induction stims with
  | nil =>
    intro ram log bus hlog e he
    simpa [run_loop] using hlog e he
  | cons s rest ih =>
    intro ram log bus hlog e he
    rw [run_loop] at he
    split at he
    · exact hlog e he
    · split at he
      · exact hlog e he
      · refine ih _ _ _ ?_ e he
        intro x hx
        rcases List.mem_append.mp hx with hx | hx
        · exact hlog x hx
        · rcases hopt : (run_step m ram s).2.2 with _ | y
          · simp [hopt] at hx
          · simp [hopt] at hx
            exact hx ▸ hstep ram s y hopt

/-- The reported cycle count is exactly the limit `N` whenever the driven
cycle list is long enough and the ring cannot fill first. -/
theorem run_loop_count (m : LogMode) (N : Nat) :
    ∀ (stims : List Stim) (ram : Ram) (log : List BusLog) (bus : Nat),
      log.length ≤ bus → bus ≤ N → N ≤ MAX_CYCLES → N ≤ bus + stims.length →
      (run_loop m N stims ram log bus).2.2 = N := by
  intro stims
  induction stims with
  | nil =>
    intro ram log bus h1 h2 h3 h4
    rw [run_loop]
    show bus = N
    simp only [List.length_nil] at h4
    omega
  | cons s rest ih =>
    intro ram log bus h1 h2 h3 h4
    rw [run_loop]
    by_cases hb : N ≤ bus
    · rw [if_pos hb]
      show bus = N
      omega
    · rw [if_neg hb, if_neg (by rintro ⟨_, hlen⟩; omega)]
      have hl := run_step_toList_le m ram s
      simp only [List.length_cons] at h4
      refine ih _ _ _ ?_ (by omega) h3 (by omega)
      simp only [List.length_append]
      omega

/-- In `FULL_LOG` mode a step always appends exactly one entry. -/
theorem run_step_full_log_len (ram : Ram) (s : Stim) :
    (run_step .FULL_LOG ram s).2.2.toList.length = 1 := by
  rcases hr : s.is_read with _ | _ <;> simp [run_step, hr, should_log]

/-- In `FULL_LOG` mode the run appends one ring entry per executed cycle:
with the preconditions of `run_loop_count` the final ring prefix has length
exactly `N`. -/
theorem run_loop_full_len (N : Nat) :
    ∀ (stims : List Stim) (ram : Ram) (log : List BusLog) (bus : Nat),
      log.length = bus → bus ≤ N → N ≤ MAX_CYCLES → N ≤ bus + stims.length →
      (run_loop .FULL_LOG N stims ram log bus).2.1.length = N := by
  intro stims
  induction stims with
  | nil =>
    intro ram log bus h1 h2 h3 h4
    rw [run_loop]
    show log.length = N
    simp only [List.length_nil] at h4
    omega
  | cons s rest ih =>
    intro ram log bus h1 h2 h3 h4
    rw [run_loop]
    by_cases hb : N ≤ bus
    · rw [if_pos hb]
      show log.length = N
      omega
    · rw [if_neg hb, if_neg (by rintro ⟨_, hlen⟩; omega)]
      have hl := run_step_full_log_len ram s
      simp only [List.length_cons] at h4
      refine ih _ _ _ ?_ (by omega) h3 (by omega)
      simp only [List.length_append]
      omega

theorem run_step_entry_iolog (ram : Ram) (s : Stim) (e : BusLog)
    (h : (run_step .IO_LOG ram s).2.2 = some e) :
    e.type ≠ LOG_MEM_RD ∧ e.type ≠ LOG_MEM_WR := by
  rcases hio : s.is_io with _ | _ <;> rcases hr : s.is_read with _ | _ <;>
    simp [run_step, should_log, hio, hr] at h <;>
    (rcases h with ⟨hcond, rfl⟩
     simp [LOG_MEM_RD, LOG_MEM_WR, LOG_IO_RD, LOG_IO_WR])

theorem run_step_entry_comlog (ram : Ram) (s : Stim) (e : BusLog)
    (h : (run_step .COM_LOG ram s).2.2 = some e) :
    e.address = 0x2F8 ∧ (e.type = LOG_IO_RD ∨ e.type = LOG_IO_WR) := by
  rcases hio : s.is_io with _ | _ <;> rcases hr : s.is_read with _ | _ <;>
    simp [run_step, should_log, hio, hr] at h <;>
    (rcases h with ⟨hcond, rfl⟩
     simp_all [LOG_IO_RD, LOG_IO_WR])

/-- C4: the log-mode filter. In `IO_LOG` mode no appended ring entry is a
memory read or memory write; in `COM_LOG` mode every appended entry is an
I/O cycle at the one monitored port `0x2F8` — whatever cycle limit, driven
bus-cycle sequence and initial RAM the run starts from. -/
theorem C4_log_mode_filter (N : Nat) (stims : List Stim) (ram : Ram) :
    (∀ e ∈ (run_loop .IO_LOG N stims ram [] 0).2.1,
      e.type ≠ LOG_MEM_RD ∧ e.type ≠ LOG_MEM_WR) ∧
    (∀ e ∈ (run_loop .COM_LOG N stims ram [] 0).2.1,
      e.address = 0x2F8 ∧ (e.type = LOG_IO_RD ∨ e.type = LOG_IO_WR)) := by
  constructor
  · exact run_loop_entries_prop _ N _ (run_step_entry_iolog) stims ram [] 0
      (by simp)
  · exact run_loop_entries_prop _ N _ (run_step_entry_comlog) stims ram [] 0
      (by simp)

/-- C3, amended: a run with `cycle_limit = N` (with `N` within the ring
capacity) over a driven bus that produces more than `N` valid cycles reports
exactly `N` executed cycles in every mode; and in `FULL_LOG` mode — where
the filter accepts every completed cycle — the cleared ring afterwards holds
a valid entry exactly at the indices below `N`, the `Unused` sentinel
everywhere beyond. -/
theorem C3_cycle_limit_exact (N : Nat) (stims : List Stim) (ram : Ram)
    (m : LogMode) (hN : N ≤ MAX_CYCLES) (hlen : N < stims.length) :
    (run_loop m N stims ram [] 0).2.2 = N ∧
    (m = .FULL_LOG →
      ∀ i, i < MAX_CYCLES →
        ((ring (run_loop m N stims ram [] 0).2.1 i).type ≠ LOG_UNUSED ↔ i < N)) := by
  constructor
  · exact run_loop_count m N stims ram [] 0 (by simp) (by omega) hN (by omega)
  · rintro rfl i _
    have hlen' := run_loop_full_len N stims ram [] 0 rfl (by omega) hN (by omega)
    have htypes := run_loop_entries_prop .FULL_LOG N
      (fun e => e.type ≠ LOG_UNUSED)
      (fun ram s e h => run_step_entry_ne_unused .FULL_LOG ram s e h)
      stims ram [] 0 (by simp)
    set entries := (run_loop .FULL_LOG N stims ram [] 0).2.1 with hent
    constructor
    · intro hne
      by_contra hge
      apply hne
      have : entries.length ≤ i := by omega
      simp [ring, List.getD_eq_getElem?_getD, List.getElem?_eq_none this,
        unusedLog, LOG_UNUSED]
    · intro hiN
      have hlt : i < entries.length := by omega
      have : ring entries i = entries[i] := by
        simp [ring, List.getD_eq_getElem?_getD, List.getElem?_eq_getElem hlt]
      rw [this]
      exact htypes _ (List.getElem_mem hlt)

/-- Witness for `C3_cycle_limit_exact`: a full-log run limited to 2 cycles
over three driven memory writes executes exactly 2 and leaves exactly two
valid ring entries. -/
theorem C3_witness :
    (run_loop .FULL_LOG 2
        [⟨0x100, false, false, false, 0x1234⟩, ⟨0x102, false, false, false, 0x5678⟩,
          ⟨0x104, false, false, false, 0x9ABC⟩] (fun _ => 0xF4) [] 0).2.2 = 2 ∧
    ∀ i, i < MAX_CYCLES →
      ((ring (run_loop .FULL_LOG 2
          [⟨0x100, false, false, false, 0x1234⟩, ⟨0x102, false, false, false, 0x5678⟩,
            ⟨0x104, false, false, false, 0x9ABC⟩] (fun _ => 0xF4) [] 0).2.1 i).type
        ≠ LOG_UNUSED ↔ i < 2) := by
  have h := C3_cycle_limit_exact 2
    [⟨0x100, false, false, false, 0x1234⟩, ⟨0x102, false, false, false, 0x5678⟩,
      ⟨0x104, false, false, false, 0x9ABC⟩] (fun _ => 0xF4) .FULL_LOG
    (by decide) (by decide)
  exact ⟨h.1, h.2 rfl⟩

/-- C3 counterexample, for the claim as stated over every logging mode: an
`IO_LOG` run with `cycle_limit = 1` over a bus driving two valid memory
write cycles reports 1 executed cycle, yet the ring holds no valid entry at
index 0 (the filter discarded the memory cycle), so it does not hold
"exactly `N` valid entries followed by `Unused`". -/
theorem C3_counterexample :
    (run_loop .IO_LOG 1
        [⟨0x100, false, false, false, 0xABCD⟩, ⟨0x102, false, false, false, 0xEF01⟩]
        (fun _ => 0xF4) [] 0).2.2 = 1 ∧
    (ring (run_loop .IO_LOG 1
        [⟨0x100, false, false, false, 0xABCD⟩, ⟨0x102, false, false, false, 0xEF01⟩]
        (fun _ => 0xF4) [] 0).2.1 0).type = LOG_UNUSED ∧
    ¬ (∀ i, i < MAX_CYCLES →
        ((ring (run_loop .IO_LOG 1
            [⟨0x100, false, false, false, 0xABCD⟩, ⟨0x102, false, false, false, 0xEF01⟩]
            (fun _ => 0xF4) [] 0).2.1 i).type ≠ LOG_UNUSED ↔ i < 1)) := by
  refine ⟨by decide, by decide, fun hall => ?_⟩
  have h0 := (hall 0 (by decide)).mpr (by decide)
  revert h0
  decide

/-! ## XMODEM over a byte-list link

The serial link is modelled as the list of bytes a side will read, in
order: `_inbyte` consumes the head and an exhausted list is a timeout (no
further byte ever arrives, as on a dead link). Bytes written are
accumulated in order. The unbounded `goto` structure of `xmodem_receive`
is translated as a state machine over the program points of the C code
(`receive_loop`, `receive_loop_start_sync`, the step-4 read and the
initial handshake), driven by a fuel counter; `none` stands for running
out of fuel, never for a result of the C code. -/

/-- `_inbyte`: consume the next byte of the link; `none` is a timeout. -/
def inb : List Nat → Option (Nat × List Nat)
  | [] => none
  | b :: rest => some (b, rest)

/-- Outcome of `xmodem_receive`: returned flag, bytes stored into `dest`,
bytes written to the link, unread input. -/
structure XRes where
  ok : Bool
  dest : List Nat
  out : List Nat
  rest : List Nat
deriving DecidableEq, Repr

/-- Outcome of `xmodem_send`: returned flag, bytes written, unread input. -/
structure SRes where
  ok : Bool
  out : List Nat
  rest : List Nat
deriving DecidableEq, Repr

/-- Program points of `xmodem_receive`, each carrying the `retries`
counter: the initial `C` handshake, the block body after a consumed `SOH`
(label `receive_loop`, top of the `while`), the resynchronisation loop
(label `receive_loop_start_sync`), and the wait for `EOT` or the next
`SOH` (step 4). -/
inductive XrPhase where
  | start (retries : Nat)
  | main (retries : Nat)
  | sync (retries : Nat)
  | step4 (retries : Nat)
deriving DecidableEq, Repr

/-- Reading the 132 block bytes after `SOH` (`buffer[1..132]`): block
number, its complement byte, the 128 data bytes, the two CRC bytes and the
unread remainder; `none` is a mid-block timeout (the C code then flushes
every byte still unread). -/
def read_packet (input : List Nat) :
    Option (Nat × Nat × List Nat × Nat × Nat × List Nat) :=
  match input with
  | b1 :: b2 :: tail =>
    if tail.length < 130 then none
    else some (b1, b2, tail.take 128, tail.getD 128 0, tail.getD 129 0,
      tail.drop 130)
  | _ => none

/-- The `xmodem_receive` state machine. `blockNum` is the uint8
`block_num`, `total` the running `total_bytes`, `maxLen` the destination
capacity. -/
def xr_run (fuel : Nat) (maxLen : Nat) (ph : XrPhase) (blockNum total : Nat)
    (dest input out : List Nat) : Option XRes :=
  match fuel with
  | 0 => none
  | fuel + 1 =>
    match ph with
    | .start retries =>
      if retries < 16 then
        match inb input with
        | some (c, rest) =>
          if c = SOH then
            xr_run fuel maxLen (.main 0) blockNum total dest rest (out ++ [0x43])
          else
            xr_run fuel maxLen (.start (retries + 1)) blockNum total dest rest
              (out ++ [0x43])
        | none =>
          xr_run fuel maxLen (.start (retries + 1)) blockNum total dest input
            (out ++ [0x43])
      else
        some ⟨false, dest, out, input⟩
    | .main retries =>
      if retries < 16 then
        match read_packet input with
        | none =>
          xr_run fuel maxLen (.sync (retries + 1)) blockNum total dest []
            (out ++ [NAK])
        | some (b1, b2, data, hi, lo, rest) =>
          if b1 = blockNum ∧ b2 = 255 - blockNum then
            if crc16_ccitt data = (hi <<< 8 ||| lo) then
              if maxLen < total + 128 then
                some ⟨false, dest, out ++ [CAN, CAN], rest⟩
              else
                xr_run fuel maxLen (.step4 0) ((blockNum + 1) % 256)
                  (total + 128) (dest ++ data) rest (out ++ [ACK])
            else
              xr_run fuel maxLen (.sync (retries + 1)) blockNum total dest rest
                (out ++ [NAK])
          else if b1 = (blockNum + 255) % 256 then
            xr_run fuel maxLen (.step4 0) blockNum total dest rest (out ++ [ACK])
          else
            xr_run fuel maxLen (.sync (retries + 1)) blockNum total dest rest
              (out ++ [NAK])
      else
        some ⟨false, dest, out ++ [CAN, CAN], input⟩
    | .step4 retries =>
      match inb input with
      | some (c, rest) =>
        if c = EOT then some ⟨true, dest, out ++ [ACK], []⟩
        else if c = SOH then
          xr_run fuel maxLen (.main retries) blockNum total dest rest out
        else
          xr_run fuel maxLen (.sync retries) blockNum total dest rest out
      | none =>
        xr_run fuel maxLen (.sync (retries + 1)) blockNum total dest input
          (out ++ [NAK])
    | .sync retries =>
      match inb input with
      | some (c, rest) =>
        if c = SOH then xr_run fuel maxLen (.main 0) blockNum total dest rest out
        else xr_run fuel maxLen (.sync retries) blockNum total dest rest out
      | none =>
        xr_run fuel maxLen (.main retries) blockNum total dest input
          (out ++ [NAK])

/-- `xmodem_receive(dest, max_len)`: handshake with `block_num = 1`,
`total_bytes = 0`, empty destination. -/
def xmodem_receive (maxLen : Nat) (input : List Nat) (fuel : Nat) : Option XRes :=
  xr_run fuel maxLen (.start 0) 1 0 [] input []

/-- Program points of `xmodem_send`: the outer per-block loop, one block's
bounded send-and-await-ACK attempts, and the final `EOT` retry loop. -/
inductive XsPhase where
  | loop
  | attempt (retries : Nat)
  | eot (retries : Nat)
deriving DecidableEq, Repr

/-- The 128-byte block starting at `sent_len`: the `0x1A` `memset` padding
overlaid with the copied slice of `src`. -/
def xs_block (src : List Nat) (sent_len : Nat) : List Nat :=
  let chunk := (src.drop sent_len).take 128
  chunk ++ List.replicate (128 - chunk.length) 0x1A

/-- The bytes of one transmitted block: `SOH`, block number, its
complement (`(uint8)~packetno`), the 128 data bytes, CRC high byte, CRC
low byte. -/
def xs_packet (packetno : Nat) (buff : List Nat) : List Nat :=
  SOH :: packetno :: (255 - packetno) ::
    buff ++ [crc16_ccitt buff >>> 8, crc16_ccitt buff &&& 0xFF]

/-- The `xmodem_send` state machine (after the handshake and the
zero-length shortcut). -/
def xs_run (fuel : Nat) (src : List Nat) (ph : XsPhase) (sent_len packetno : Nat)
    (input out : List Nat) : Option SRes :=
  match fuel with
  | 0 => none
  | fuel + 1 =>
    match ph with
    | .loop =>
      if sent_len < src.length then
        xs_run fuel src (.attempt 0) sent_len packetno input out
      else
        xs_run fuel src (.eot 0) sent_len packetno input out
    | .attempt retries =>
      if retries < 10 then
        let out' := out ++ xs_packet packetno (xs_block src sent_len)
        match inb input with
        | some (c, rest) =>
          if c = ACK then
            xs_run fuel src .loop (sent_len + 128) ((packetno + 1) % 256) rest out'
          else
            xs_run fuel src (.attempt (retries + 1)) sent_len packetno rest out'
        | none =>
          xs_run fuel src (.attempt (retries + 1)) sent_len packetno input out'
      else
        some ⟨false, out ++ [CAN, CAN], input⟩
    | .eot retries =>
      if retries < 10 then
        let out' := out ++ [EOT]
        match inb input with
        | some (c, rest) =>
          if c = ACK then some ⟨true, out', rest⟩
          else xs_run fuel src (.eot (retries + 1)) sent_len packetno rest out'
        | none => xs_run fuel src (.eot (retries + 1)) sent_len packetno input out'
      else
        some ⟨false, out, input⟩

/-- The sender's initial handshake: up to 10 reads, a `CAN CAN` pair
written for every byte that is not the receiver's `C` (a timeout
included); the loop leaves at the first `C` — or, as in the C code, falls
through after 10 failures. Returns the unread input and the written
bytes. -/
def xs_handshake : Nat → List Nat → List Nat → List Nat × List Nat
  | 0, input, out => (input, out)
  | n + 1, input, out =>
    match inb input with
    | some (c, rest) =>
      if c = 0x43 then (rest, out)
      else xs_handshake n rest (out ++ [CAN, CAN])
    | none => xs_handshake n input (out ++ [CAN, CAN])

/-- `xmodem_send(src, len)`: handshake, the zero-length shortcut (a lone
`EOT`, one byte consumed for its ACK, success reported), otherwise the
block loop from `sent_len = 0`, `packetno = 1`. -/
def xmodem_send (src : List Nat) (input : List Nat) (fuel : Nat) : Option SRes :=
  let hs := xs_handshake 10 input []
  if src.length = 0 then
    match inb hs.1 with
    | some (_, rest) => some ⟨true, hs.2 ++ [EOT], rest⟩
    | none => some ⟨true, hs.2 ++ [EOT], hs.1⟩
  else
    xs_run fuel src .loop 0 1 hs.1 hs.2

/-- The canonical sender-to-receiver wire of a successful transfer:
the numbered blocks of `src` in order (the first argument bounds the
recursion; `src.length` suffices), then `EOT`. -/
def send_wire_go : Nat → List Nat → Nat → List Nat
  | 0, _, _ => []
  | _ + 1, [], _ => []
  | k + 1, l, pno =>
    xs_packet pno (xs_block l 0) ++ send_wire_go k (l.drop 128) ((pno + 1) % 256)

/-- The full canonical sender-to-receiver wire. -/
def send_wire (src : List Nat) : List Nat := send_wire_go src.length src 1 ++ [EOT]

/-- The canonical receiver-to-sender wire: the initial `C`, one `ACK` per
block, the final `ACK` answering `EOT`. -/
def recv_wire (len : Nat) : List Nat :=
  0x43 :: (List.replicate ((len + 127) / 128) ACK ++ [ACK])

/-- The closed-loop run of `xmodem_send src` against `xmodem_receive` with
destination capacity `cap` over a perfect link: each side reads exactly
what the other writes (both byte sequences are checked against the
canonical wires), both report success, the receiver's destination starts
with `src` and is padded to a whole number of 128-byte blocks. -/
def round_trip (src : List Nat) (cap fuel : Nat) : Bool :=
  match xmodem_send src (recv_wire src.length) fuel,
      xmodem_receive cap (send_wire src) fuel with
  | some s, some r =>
    s.ok && r.ok && s.out == send_wire src && r.out == recv_wire src.length &&
      r.dest.take src.length == src &&
      r.dest.length == 128 * ((src.length + 127) / 128)
  | _, _ => false

/-! ### The block structure of a successful transfer

The general round-trip proof works block by block: `xs_body` is the byte
sequence of one block after its `SOH`, `pad_chunks` the destination bytes a
faultless receiver accumulates, and the lemmas below relate them to the
parsing and emission paths of the two state machines. -/

/-- Splitting a CRC into its two wire bytes and reassembling them as the
receiver does is the identity. -/
theorem crc_split_or (c : Nat) : (c >>> 8) <<< 8 ||| (c &&& 0xFF) = c := by
  have h255 : c &&& 0xFF = c % 2 ^ 8 := by
    have h := Nat.and_pow_two_sub_one_eq_mod c 8
    norm_num at h ⊢
    exact h
  apply Nat.eq_of_testBit_eq
  intro i
  rw [Nat.testBit_lor, Nat.testBit_shiftLeft, Nat.testBit_shiftRight, h255,
    Nat.testBit_mod_two_pow]
  rcases Nat.lt_or_ge i 8 with h | h
  · simp [h, Nat.not_le.mpr h]
  · have : 8 + (i - 8) = i := by omega
    simp [h, Nat.not_lt.mpr h, this]

/-- One block's bytes after its `SOH`: number, complement, 128 data bytes,
the two CRC bytes. -/
def xs_body (packetno : Nat) (buff : List Nat) : List Nat :=
  packetno :: (255 - packetno) ::
    buff ++ [crc16_ccitt buff >>> 8, crc16_ccitt buff &&& 0xFF]

theorem xs_packet_eq_body (packetno : Nat) (buff : List Nat) :
    xs_packet packetno buff = SOH :: xs_body packetno buff := rfl

theorem xs_block_length (src : List Nat) (sent_len : Nat) :
    (xs_block src sent_len).length = 128 := by
  simp [xs_block]

theorem xs_block_drop (src : List Nat) (sent_len : Nat) :
    xs_block src sent_len = xs_block (src.drop sent_len) 0 := by
  simp [xs_block]

/-- `read_packet` on a well-formed block body followed by anything parses
the body's fields and leaves the rest unread. -/
theorem read_packet_of_shape (b1 b2 hi lo : Nat) (buff rest : List Nat)
    (hlen : buff.length = 128) :
    read_packet (b1 :: b2 :: (buff ++ [hi, lo] ++ rest)) =
      some (b1, b2, buff, hi, lo, rest) := by
  have htail : (buff ++ [hi, lo] ++ rest).length = 130 + rest.length := by
    simp [hlen]
    omega
  rw [read_packet]
  rw [if_neg (by omega)]
  have htake : (buff ++ [hi, lo] ++ rest).take 128 = buff := by
    rw [List.append_assoc, List.take_append_eq_append_take,
      List.take_all_of_le (by omega), hlen]
    simp
  have hhi : (buff ++ [hi, lo] ++ rest).getD 128 0 = hi := by
    rw [List.append_assoc, List.getD_append_right _ _ _ _ (by omega), hlen]
    simp
  have hlo : (buff ++ [hi, lo] ++ rest).getD 129 0 = lo := by
    rw [List.append_assoc, List.getD_append_right _ _ _ _ (by omega), hlen]
    simp
  have hdrop : (buff ++ [hi, lo] ++ rest).drop 130 = rest := by
    rw [List.append_assoc, List.drop_append_eq_append_drop,
      List.drop_eq_nil_of_le (by omega), hlen]
    simp
  rw [htake, hhi, hlo, hdrop]

/-- The destination bytes a faultless receiver accumulates: the padded
128-byte chunks of the source, in order (the counter bounds the recursion;
the source length suffices). -/
def pad_chunks : Nat → List Nat → List Nat
  | 0, _ => []
  | _ + 1, [] => []
  | k + 1, l => xs_block l 0 ++ pad_chunks k (l.drop 128)

theorem send_wire_go_nil (k pno : Nat) : send_wire_go k [] pno = [] := by
  cases k <;> rfl

theorem pad_chunks_nil (k : Nat) : pad_chunks k [] = [] := by
  cases k <;> rfl

theorem send_wire_go_cons (k : Nat) (x : Nat) (xs : List Nat) (pno : Nat) :
    send_wire_go (k + 1) (x :: xs) pno =
      xs_packet pno (xs_block (x :: xs) 0) ++
        send_wire_go k ((x :: xs).drop 128) ((pno + 1) % 256) := rfl

theorem pad_chunks_cons (k : Nat) (x : Nat) (xs : List Nat) :
    pad_chunks (k + 1) (x :: xs) =
      xs_block (x :: xs) 0 ++ pad_chunks k ((x :: xs).drop 128) := rfl

/-- The counter of `send_wire_go` is irrelevant once it dominates the
source length. -/
theorem send_wire_go_congr :
    ∀ (k1 k2 : Nat) (l : List Nat) (pno : Nat), l.length ≤ k1 → l.length ≤ k2 →
      send_wire_go k1 l pno = send_wire_go k2 l pno := by
  intro k1
  induction k1 with
  | zero =>
    intro k2 l pno h1 h2
    have : l = [] := List.length_eq_zero.mp (by omega)
    subst this
    rw [send_wire_go_nil, send_wire_go_nil]
  | succ k ih =>
    intro k2 l pno h1 h2
    rcases l with _ | ⟨x, xs⟩
    · rw [send_wire_go_nil, send_wire_go_nil]
    · rcases k2 with _ | k2
      · simp at h2
      · rw [send_wire_go_cons, send_wire_go_cons]
        congr 1
        apply ih
        · simp at h1 ⊢
          omega
        · simp at h2 ⊢
          omega

/-- The counter of `pad_chunks` is irrelevant once it dominates the source
length. -/
theorem pad_chunks_congr :
    ∀ (k1 k2 : Nat) (l : List Nat), l.length ≤ k1 → l.length ≤ k2 →
      pad_chunks k1 l = pad_chunks k2 l := by
  intro k1
  induction k1 with
  | zero =>
    intro k2 l h1 h2
    have : l = [] := List.length_eq_zero.mp (by omega)
    subst this
    rw [pad_chunks_nil, pad_chunks_nil]
  | succ k ih =>
    intro k2 l h1 h2
    rcases l with _ | ⟨x, xs⟩
    · rw [pad_chunks_nil, pad_chunks_nil]
    · rcases k2 with _ | k2
      · simp at h2
      · rw [pad_chunks_cons, pad_chunks_cons]
        congr 1
        apply ih
        · simp at h1 ⊢
          omega
        · simp at h2 ⊢
          omega

theorem pad_chunks_take :
    ∀ (k : Nat) (l : List Nat), l.length ≤ k →
      (pad_chunks k l).take l.length = l := by
  intro k
  induction k with
  | zero =>
    intro l h
    have : l = [] := List.length_eq_zero.mp (by omega)
    subst this
    rfl
  | succ k ih =>
    intro l h
    rcases l with _ | ⟨x, xs⟩
    · rfl
    · rw [pad_chunks_cons]
      rcases le_or_lt (x :: xs).length 128 with hle | hgt
      · have hdrop : (x :: xs).drop 128 = [] := List.drop_eq_nil_of_le hle
        rw [hdrop, pad_chunks_nil, List.append_nil]
        simp only [xs_block, List.drop_zero]
        rw [List.take_append_eq_append_take, List.take_take, List.length_take]
        have h1 : min (x :: xs).length 128 = (x :: xs).length :=
          Nat.min_eq_left hle
        have h2 : min 128 (x :: xs).length = (x :: xs).length :=
          Nat.min_eq_right hle
        rw [h1, h2, List.take_length, Nat.sub_self, List.take_zero,
          List.append_nil]
      · have hblk : xs_block (x :: xs) 0 = (x :: xs).take 128 := by
          simp only [xs_block, List.drop_zero, List.length_take]
          have : min 128 (x :: xs).length = 128 := Nat.min_eq_left (by omega)
          rw [this, Nat.sub_self, List.replicate_zero, List.append_nil]
        rw [hblk, List.take_append_eq_append_take, List.take_take,
          List.length_take]
        have h1 : min (x :: xs).length 128 = 128 := Nat.min_eq_right (by omega)
        have h2 : min 128 (x :: xs).length = 128 := Nat.min_eq_left (by omega)
        rw [h1, h2]
        have hlen : ((x :: xs).drop 128).length = (x :: xs).length - 128 := by
          simp
        have := ih ((x :: xs).drop 128) (by simp at h ⊢; omega)
        rw [hlen] at this
        rw [this, List.take_append_drop]

theorem pad_chunks_length :
    ∀ (k : Nat) (l : List Nat), l.length ≤ k →
      (pad_chunks k l).length = 128 * ((l.length + 127) / 128) := by
  intro k
  induction k with
  | zero =>
    intro l h
    have : l = [] := List.length_eq_zero.mp (by omega)
    subst this
    rfl
  | succ k ih =>
    intro l h
    rcases l with _ | ⟨x, xs⟩
    · rfl
    · rw [pad_chunks_cons]
      rcases le_or_lt (x :: xs).length 128 with hle | hgt
      · have hdrop : (x :: xs).drop 128 = [] := List.drop_eq_nil_of_le hle
        rw [hdrop, pad_chunks_nil, List.append_nil, xs_block_length]
        have h1 : (x :: xs).length ≥ 1 := by simp
        omega
      · rw [List.length_append, xs_block_length,
          ih ((x :: xs).drop 128) (by simp at h ⊢; omega)]
        have hlen : ((x :: xs).drop 128).length = (x :: xs).length - 128 := by
          simp
        rw [hlen]
        omega

/-- `pad_chunks` unfolded one block for a nonempty source. -/
theorem pad_chunks_ne_nil (l : List Nat) (k : Nat) (h : l ≠ []) :
    pad_chunks (k + 1) l = xs_block l 0 ++ pad_chunks k (l.drop 128) := by
  obtain ⟨x, xs, rfl⟩ := List.exists_cons_of_ne_nil h
  rw [pad_chunks_cons]

/-- `send_wire_go` unfolded one block for a nonempty source. -/
theorem send_wire_go_ne_nil (l : List Nat) (k pno : Nat) (h : l ≠ []) :
    send_wire_go (k + 1) l pno =
      xs_packet pno (xs_block l 0) ++
        send_wire_go k (l.drop 128) ((pno + 1) % 256) := by
  obtain ⟨x, xs, rfl⟩ := List.exists_cons_of_ne_nil h
  rw [send_wire_go_cons]

/-- A faultless receiver at the top of `receive_loop`, its expected block
number matching the wire, consumes the remaining blocks of the source `l`
and the final `EOT`, acknowledging each, and ends successfully having
appended exactly the padded chunks of `l`. -/
theorem xr_receive_blocks :
    ∀ (k : Nat) (l : List Nat) (pno retries total maxLen fuel : Nat)
      (dest out : List Nat),
      l ≠ [] → l.length ≤ k → retries < 16 →
      total + 128 * ((l.length + 127) / 128) ≤ maxLen →
      2 * ((l.length + 127) / 128) + 1 ≤ fuel →
      xr_run fuel maxLen (.main retries) pno total dest
        (xs_body pno (xs_block l 0) ++
          (send_wire_go (l.drop 128).length (l.drop 128) ((pno + 1) % 256) ++
            [EOT])) out =
      some ⟨true, dest ++ pad_chunks l.length l,
        out ++ (List.replicate ((l.length + 127) / 128) ACK ++ [ACK]), []⟩ := by
  intro k
  induction k with
  | zero =>
    intro l pno retries total maxLen fuel dest out hne hk _ _ _
    exact absurd (List.length_eq_zero.mp (by omega)) hne
  | succ k ih =>
    intro l pno retries total maxLen fuel dest out hne hk hret hmax hfuel
    have hlpos : 1 ≤ l.length := List.length_pos.mpr hne
    have hnb1 : 1 ≤ (l.length + 127) / 128 := by omega
    obtain ⟨f, rfl⟩ : ∃ f, fuel = f + 1 := ⟨fuel - 1, by omega⟩
    rw [xr_run, if_pos hret]
    have hrp : read_packet (xs_body pno (xs_block l 0) ++
        (send_wire_go (l.drop 128).length (l.drop 128) ((pno + 1) % 256) ++
          [EOT])) =
        some (pno, 255 - pno, xs_block l 0, crc16_ccitt (xs_block l 0) >>> 8,
          crc16_ccitt (xs_block l 0) &&& 0xFF,
          send_wire_go (l.drop 128).length (l.drop 128) ((pno + 1) % 256) ++
            [EOT]) :=
      read_packet_of_shape _ _ _ _ _ _ (xs_block_length l 0)
    rw [hrp]
    have hno : ¬ maxLen < total + 128 := by omega
    simp only [and_self, crc_split_or, if_neg hno,
      if_pos (And.intro rfl rfl), if_pos rfl]
    obtain ⟨g, rfl⟩ : ∃ g, f = g + 1 := ⟨f - 1, by omega⟩
    have hlen1 : l.length = (l.length - 1) + 1 := by omega
    have hdlen : (l.drop 128).length = l.length - 128 := by simp
    by_cases hdl : l.drop 128 = []
    · -- last block: the wire continues with EOT only
      have hle : l.length ≤ 128 := by
        by_contra hgt
        exact (List.ne_nil_of_length_pos (by omega : 0 < (l.drop 128).length)) hdl
      rw [hdl]
      rw [xr_run]
      simp only [List.length_nil, send_wire_go_nil, List.nil_append, inb,
        if_pos rfl, if_true]
      have hnb2 : (l.length - 1 + 1 + 127) / 128 = 1 := by omega
      rw [hlen1, pad_chunks_ne_nil _ _ hne, hdl, pad_chunks_nil,
        List.append_nil, hnb2]
      simp [List.append_assoc]
    · -- more blocks follow: the wire continues with the next SOH
      have hgt : 128 < l.length := by
        by_contra hle
        exact hdl (List.drop_eq_nil_of_le (by omega))
      obtain ⟨y, ys, hys⟩ := List.exists_cons_of_ne_nil hdl
      have hrest : send_wire_go (l.drop 128).length (l.drop 128)
          ((pno + 1) % 256) ++ [EOT] =
          SOH :: (xs_body ((pno + 1) % 256) (xs_block (l.drop 128) 0) ++
            (send_wire_go ((l.drop 128).drop 128).length
              ((l.drop 128).drop 128) (((pno + 1) % 256 + 1) % 256) ++
              [EOT])) := by
        have h1 : (l.drop 128).length = ((l.drop 128).length - 1) + 1 := by
          rw [hys]
          simp
        rw [h1, send_wire_go_ne_nil _ _ _ hdl, xs_packet_eq_body]
        rw [send_wire_go_congr ((l.drop 128).length - 1)
          ((l.drop 128).drop 128).length ((l.drop 128).drop 128) _
          (by simp; omega) (by simp)]
        simp [List.append_assoc]
      rw [hrest, xr_run]
      simp only [inb]
      have hso : ¬ (SOH = EOT) := by decide
      simp only [if_neg hso, if_pos rfl]
      have hih := ih (l.drop 128) ((pno + 1) % 256) 0 (total + 128) maxLen g
        (dest ++ xs_block l 0) (out ++ [ACK]) hdl
        (by omega) (by omega) (by rw [hdlen]; omega) (by rw [hdlen]; omega)
      rw [hih]
      have hnb : (l.length + 127) / 128 =
          ((l.drop 128).length + 127) / 128 + 1 := by
        rw [hdlen]
        omega
      rw [hnb, List.replicate_succ, hlen1, pad_chunks_ne_nil _ _ hne,
        pad_chunks_congr (l.length - 1) (l.drop 128).length (l.drop 128)
          (by rw [hdlen]; omega) (by omega)]
      simp [List.append_assoc]

/-- A faultless receiver over the canonical wire of a nonempty source,
with enough capacity for the padded data: the transfer succeeds, the
destination holds exactly the padded chunks of the source, and the bytes
written are the canonical `C`/ACK answer wire. -/
theorem xmodem_receive_wire (src : List Nat) (cap fuel : Nat)
    (hne : src ≠ [])
    (hcap : 128 * ((src.length + 127) / 128) ≤ cap)
    (hfuel : 2 * ((src.length + 127) / 128) + 2 ≤ fuel) :
    xmodem_receive cap (send_wire src) fuel =
      some ⟨true, pad_chunks src.length src, recv_wire src.length, []⟩ := by
  have hlpos : 1 ≤ src.length := List.length_pos.mpr hne
  obtain ⟨f, rfl⟩ : ∃ f, fuel = f + 1 := ⟨fuel - 1, by omega⟩
  have hwire : send_wire src =
      SOH :: (xs_body 1 (xs_block src 0) ++
        (send_wire_go (src.drop 128).length (src.drop 128) ((1 + 1) % 256) ++
          [EOT])) := by
    unfold send_wire
    rw [show src.length = (src.length - 1) + 1 from by omega,
      send_wire_go_ne_nil _ _ _ hne, xs_packet_eq_body,
      send_wire_go_congr (src.length - 1) (src.drop 128).length (src.drop 128)
        _ (by simp; omega) (by omega)]
    simp [List.append_assoc]
  unfold xmodem_receive
  rw [xr_run, if_pos (by omega : (0:Nat) < 16), hwire]
  simp only [inb]
  rw [if_pos trivial]
  rw [xr_receive_blocks src.length src 1 0 0 cap f [] ([] ++ [0x43]) hne
    le_rfl (by omega) (by omega) (by omega)]
  unfold recv_wire
  simp

/-- The sender's block loop against a faultless receiver: each block is
sent once and acknowledged, then `EOT` is acknowledged; the bytes written
are exactly the canonical wire of the remaining source. -/
theorem xs_send_blocks :
    ∀ (k : Nat) (src : List Nat) (sent_len pno fuel : Nat) (out : List Nat),
      sent_len < src.length →
      src.length - sent_len ≤ k →
      2 * ((src.length - sent_len + 127) / 128) + 2 ≤ fuel →
      xs_run fuel src .loop sent_len pno
        (List.replicate ((src.length - sent_len + 127) / 128) ACK ++ [ACK])
        out =
      some ⟨true,
        out ++ (send_wire_go (src.length - sent_len) (src.drop sent_len) pno ++
          [EOT]), []⟩ := by
  intro k
  induction k with
  | zero =>
    intro src sent_len pno fuel out hlt hk _
    omega
  | succ k ih =>
    intro src sent_len pno fuel out hlt hk hfuel
    have hrem1 : 1 ≤ src.length - sent_len := by omega
    have hnb1 : 1 ≤ (src.length - sent_len + 127) / 128 := by omega
    have hdne : src.drop sent_len ≠ [] := by
      apply List.ne_nil_of_length_pos
      simp
      omega
    obtain ⟨f, rfl⟩ : ∃ f, fuel = f + 1 := ⟨fuel - 1, by omega⟩
    rw [xs_run, if_pos hlt]
    obtain ⟨g, rfl⟩ : ∃ g, f = g + 1 := ⟨f - 1, by omega⟩
    rw [xs_run]
    dsimp only
    rw [if_pos (by omega : (0:Nat) < 10)]
    have hinput : List.replicate ((src.length - sent_len + 127) / 128) ACK ++
        [ACK] =
        ACK :: (List.replicate ((src.length - sent_len + 127) / 128 - 1) ACK ++
          [ACK]) := by
      conv_lhs =>
        rw [show (src.length - sent_len + 127) / 128 =
          ((src.length - sent_len + 127) / 128 - 1) + 1 from by omega]
      rw [List.replicate_succ]
      simp
    rw [hinput]
    simp only [inb]
    rw [if_pos trivial]
    have hunfold : send_wire_go (src.length - sent_len) (src.drop sent_len)
        pno =
        xs_packet pno (xs_block src sent_len) ++
          send_wire_go (src.length - sent_len - 1) (src.drop (sent_len + 128))
            ((pno + 1) % 256) := by
      conv_lhs =>
        rw [show src.length - sent_len = (src.length - sent_len - 1) + 1 from
          by omega]
      rw [send_wire_go_ne_nil _ _ _ hdne, ← xs_block_drop, List.drop_drop]
    by_cases hend : src.length ≤ sent_len + 128
    · -- last block: the loop exits and EOT is sent and acknowledged
      obtain ⟨h2, rfl⟩ : ∃ h2, g = h2 + 1 := ⟨g - 1, by omega⟩
      rw [xs_run, if_neg (by omega)]
      obtain ⟨h3, rfl⟩ : ∃ h3, h2 = h3 + 1 := ⟨h2 - 1, by omega⟩
      rw [xs_run]
      dsimp only
      rw [if_pos (by omega : (0:Nat) < 10)]
      have hnb : (src.length - sent_len + 127) / 128 = 1 := by omega
      rw [hnb]
      have hone : List.replicate (1 - 1) ACK ++ [ACK] = ACK :: [] := rfl
      rw [hone]
      simp only [inb]
      rw [if_pos trivial]
      have hdrop2 : src.drop (sent_len + 128) = [] := by
        apply List.drop_eq_nil_of_le
        simpa using hend
      rw [hunfold, hdrop2, send_wire_go_nil, List.append_nil]
      simp [List.append_assoc]
    · -- more blocks: recurse one block further into the source
      rw [show (src.length - sent_len + 127) / 128 - 1 =
        (src.length - (sent_len + 128) + 127) / 128 from by omega]
      rw [ih src (sent_len + 128) ((pno + 1) % 256) g
        (out ++ xs_packet pno (xs_block src sent_len)) (by omega) (by omega)
        (by omega)]
      rw [hunfold,
        send_wire_go_congr (src.length - sent_len - 1)
          (src.length - (sent_len + 128)) (src.drop (sent_len + 128))
          ((pno + 1) % 256) (by simp; omega) (by simp)]
      simp [List.append_assoc]
/-- A faultless sender over the canonical answer wire of a nonempty
source: the handshake consumes the `C`, every block and the final `EOT`
are acknowledged, and the bytes written are exactly the canonical wire. -/
theorem xmodem_send_wire (src : List Nat) (fuel : Nat) (hne : src ≠ [])
    (hfuel : 2 * ((src.length + 127) / 128) + 2 ≤ fuel) :
    xmodem_send src (recv_wire src.length) fuel =
      some ⟨true, send_wire src, []⟩ := by
  have hlpos : 1 ≤ src.length := List.length_pos.mpr hne
  unfold xmodem_send recv_wire
  have hhs : xs_handshake 10
      (0x43 :: (List.replicate ((src.length + 127) / 128) ACK ++ [ACK])) [] =
      (List.replicate ((src.length + 127) / 128) ACK ++ [ACK], []) := rfl
  rw [hhs]
  rw [if_neg (by omega)]
  have h := xs_send_blocks src.length src 0 1 fuel [] (by omega) (by omega)
    (by simpa using hfuel)
  simp only [Nat.sub_zero, List.drop_zero] at h
  rw [h]
  simp [send_wire]

/-- A receiver at the top of `receive_loop` with too little capacity for
the remaining padded blocks aborts: it reports failure and the last two
bytes it writes are the `CAN CAN` pair. -/
theorem xr_receive_overflow :
    ∀ (k : Nat) (l : List Nat) (pno retries total maxLen fuel : Nat)
      (dest out : List Nat),
      l ≠ [] → l.length ≤ k → retries < 16 →
      maxLen < total + 128 * ((l.length + 127) / 128) →
      2 * ((l.length + 127) / 128) + 1 ≤ fuel →
      ∃ (dest2 out2 rest2 : List Nat),
        xr_run fuel maxLen (.main retries) pno total dest
          (xs_body pno (xs_block l 0) ++
            (send_wire_go (l.drop 128).length (l.drop 128) ((pno + 1) % 256) ++
              [EOT])) out =
        some ⟨false, dest2, out2 ++ [CAN, CAN], rest2⟩ := by
  intro k
  induction k with
  | zero =>
    intro l pno retries total maxLen fuel dest out hne hk _ _ _
    exact absurd (List.length_eq_zero.mp (by omega)) hne
  | succ k ih =>
    intro l pno retries total maxLen fuel dest out hne hk hret hmax hfuel
    have hlpos : 1 ≤ l.length := List.length_pos.mpr hne
    have hnb1 : 1 ≤ (l.length + 127) / 128 := by omega
    obtain ⟨f, rfl⟩ : ∃ f, fuel = f + 1 := ⟨fuel - 1, by omega⟩
    rw [xr_run, if_pos hret]
    have hrp : read_packet (xs_body pno (xs_block l 0) ++
        (send_wire_go (l.drop 128).length (l.drop 128) ((pno + 1) % 256) ++
          [EOT])) =
        some (pno, 255 - pno, xs_block l 0, crc16_ccitt (xs_block l 0) >>> 8,
          crc16_ccitt (xs_block l 0) &&& 0xFF,
          send_wire_go (l.drop 128).length (l.drop 128) ((pno + 1) % 256) ++
            [EOT]) :=
      read_packet_of_shape _ _ _ _ _ _ (xs_block_length l 0)
    rw [hrp]
    simp only [and_self, crc_split_or, if_pos (And.intro rfl rfl), if_pos rfl]
    by_cases hov : maxLen < total + 128
    · rw [if_pos hov]
      exact ⟨dest, out,
        send_wire_go (l.drop 128).length (l.drop 128) ((pno + 1) % 256) ++
          [EOT], rfl⟩
    · rw [if_neg hov]
      have hdne : l.drop 128 ≠ [] := by
        intro hnil
        have : (l.length + 127) / 128 = 1 := by
          have := congrArg List.length hnil
          simp at this
          omega
        omega
      have hgt : 128 < l.length := by
        by_contra hle
        exact hdne (List.drop_eq_nil_of_le (by omega))
      have hdlen : (l.drop 128).length = l.length - 128 := by simp
      have hrest : send_wire_go (l.drop 128).length (l.drop 128)
          ((pno + 1) % 256) ++ [EOT] =
          SOH :: (xs_body ((pno + 1) % 256) (xs_block (l.drop 128) 0) ++
            (send_wire_go ((l.drop 128).drop 128).length
              ((l.drop 128).drop 128) (((pno + 1) % 256 + 1) % 256) ++
              [EOT])) := by
        conv_lhs =>
          rw [show (l.drop 128).length = ((l.drop 128).length - 1) + 1 from by
            rw [hdlen]; omega]
        rw [send_wire_go_ne_nil _ _ _ hdne, xs_packet_eq_body,
          send_wire_go_congr ((l.drop 128).length - 1)
            ((l.drop 128).drop 128).length ((l.drop 128).drop 128) _
            (by simp; omega) (by simp)]
        simp [List.append_assoc]
      obtain ⟨g, rfl⟩ : ∃ g, f = g + 1 := ⟨f - 1, by omega⟩
      rw [hrest, xr_run]
      simp only [inb]
      have hso : ¬ (SOH = EOT) := by decide
      simp only [if_neg hso, if_pos trivial]
      apply ih (l.drop 128) ((pno + 1) % 256) 0 (total + 128) maxLen g
        (dest ++ xs_block l 0) (out ++ [ACK]) hdne (by omega) (by omega)
        (by rw [hdlen]; omega) (by rw [hdlen]; omega)

/-- A receiver over the canonical wire of a nonempty source whose capacity
is below the padded length fails with the overflow cancel. -/
theorem xmodem_receive_overflow (src : List Nat) (cap fuel : Nat)
    (hne : src ≠ []) (hcap : cap < 128 * ((src.length + 127) / 128))
    (hfuel : 2 * ((src.length + 127) / 128) + 2 ≤ fuel) :
    ∃ (r : XRes), xmodem_receive cap (send_wire src) fuel = some r ∧
      r.ok = false ∧ ∃ o, r.out = o ++ [CAN, CAN] := by
  have hlpos : 1 ≤ src.length := List.length_pos.mpr hne
  obtain ⟨f, rfl⟩ : ∃ f, fuel = f + 1 := ⟨fuel - 1, by omega⟩
  have hwire : send_wire src =
      SOH :: (xs_body 1 (xs_block src 0) ++
        (send_wire_go (src.drop 128).length (src.drop 128) ((1 + 1) % 256) ++
          [EOT])) := by
    unfold send_wire
    rw [show src.length = (src.length - 1) + 1 from by omega,
      send_wire_go_ne_nil _ _ _ hne, xs_packet_eq_body,
      send_wire_go_congr (src.length - 1) (src.drop 128).length (src.drop 128)
        _ (by simp; omega) (by omega)]
    simp [List.append_assoc]
  unfold xmodem_receive
  rw [xr_run, if_pos (by omega : (0:Nat) < 16), hwire]
  simp only [inb]
  rw [if_pos trivial]
  obtain ⟨dest2, out2, rest2, hrun⟩ := xr_receive_overflow src.length src 1 0
    0 cap f [] ([] ++ [0x43]) hne le_rfl (by omega) (by omega) (by omega)
  exact ⟨⟨false, dest2, out2 ++ [CAN, CAN], rest2⟩, hrun, rfl, out2, rfl⟩

/-- With a destination capacity below the block size, no execution of the
receiver ever stores a byte: the only path that appends to `dest` first
checks `total_bytes + 128 > max_len`, which always holds, and aborts. -/
theorem xr_run_dest_of_small (fuel : Nat) :
    ∀ (maxLen : Nat) (ph : XrPhase) (blockNum total : Nat)
      (dest input out : List Nat) (r : XRes),
      maxLen < 128 →
      xr_run fuel maxLen ph blockNum total dest input out = some r →
      r.dest = dest := by
  induction fuel with
  | zero =>
    intro maxLen ph bn total dest input out r hml h
    rw [xr_run.eq_def] at h
    simp at h
  | succ n ih =>
    intro maxLen ph bn total dest input out r hml h
    rcases ph with retries | retries | retries | retries <;>
      [skip; skip; skip; skip] <;>
      (rw [xr_run.eq_def] at h; dsimp only at h)
    · split at h
      · rcases input with _ | ⟨c, input⟩
        · simp only [inb] at h
          exact ih _ _ _ _ _ _ _ _ hml h
        · simp only [inb] at h
          split at h
          · exact ih _ _ _ _ _ _ _ _ hml h
          · exact ih _ _ _ _ _ _ _ _ hml h
      · cases h
        rfl
    · split at h
      · split at h
        · exact ih _ _ _ _ _ _ _ _ hml h
        · split at h
          · split at h
            · split at h
              · cases h
                rfl
              · omega
            · exact ih _ _ _ _ _ _ _ _ hml h
          · split at h
            · exact ih _ _ _ _ _ _ _ _ hml h
            · exact ih _ _ _ _ _ _ _ _ hml h
      · cases h
        rfl
    · rcases input with _ | ⟨c, input⟩
      · simp only [inb] at h
        exact ih _ _ _ _ _ _ _ _ hml h
      · simp only [inb] at h
        split at h
        · exact ih _ _ _ _ _ _ _ _ hml h
        · exact ih _ _ _ _ _ _ _ _ hml h
    · rcases input with _ | ⟨c, input⟩
      · simp only [inb] at h
        exact ih _ _ _ _ _ _ _ _ hml h
      · simp only [inb] at h
        split at h
        · cases h
          rfl
        · split at h
          · exact ih _ _ _ _ _ _ _ _ hml h
          · exact ih _ _ _ _ _ _ _ _ hml h

/-- C2 counterexample, for the claim as stated (destination of equal or
greater capacity suffices): a 1-byte source sent to a receiver whose
destination capacity is also 1 can never be reproduced — whatever bytes
flow on either side of the link and whatever fuel, a receiver with
capacity 1 returns with an empty destination (`xr_run_dest_of_small`), so
no successful interaction has the source byte in the destination. The
equal-capacity transfer in fact aborts on the padded first block. -/
theorem C2_counterexample :
    ¬ ∃ (a b : List Nat) (fa fb : Nat) (s : SRes) (r : XRes),
        xmodem_send [0x42] a fa = some s ∧ s.ok = true ∧
        xmodem_receive 1 b fb = some r ∧ r.ok = true ∧
        r.dest.take 1 = [0x42] := by
  rintro ⟨a, b, fa, fb, s, r, _, _, hr, _, htake⟩
  have hdest : r.dest = [] :=
    xr_run_dest_of_small fb 1 (.start 0) 1 0 [] b [] r (by omega) hr
  rw [hdest] at htake
  simp at htake

/-- C2 amended: over a perfect link, `xmodem_send` against
`xmodem_receive` succeeds and reproduces every source of positive length
as the prefix of the destination, for every destination capacity at least
the padded length `128 * ⌈len / 128⌉` and enough fuel for the blocks (the
final short block is padded, so "equal capacity" only suffices when the
length is a multiple of 128); whenever the capacity is below the padded
length the receiver of the canonical wire instead fails with the overflow
cancel, ending its output with the `CAN CAN` pair. A zero-length transfer
is reported as success by the sender but fails on the receiver, whose
handshake accepts only `SOH`: the sender's lone `EOT` is discarded and the
receiver times out after its 16 `C` polls. The closing conjuncts exhibit
concrete runs at the lengths 1, 127, 128, 129 and 300. -/
theorem C2_round_trip_amended :
    (∀ (src : List Nat) (cap fuel : Nat),
        1 ≤ src.length →
        128 * ((src.length + 127) / 128) ≤ cap →
        2 * ((src.length + 127) / 128) + 2 ≤ fuel →
        round_trip src cap fuel = true) ∧
    (∀ (src : List Nat) (cap fuel : Nat),
        1 ≤ src.length →
        cap < 128 * ((src.length + 127) / 128) →
        2 * ((src.length + 127) / 128) + 2 ≤ fuel →
        ∃ (r : XRes), xmodem_receive cap (send_wire src) fuel = some r ∧
          r.ok = false ∧ ∃ o, r.out = o ++ [CAN, CAN]) ∧
    xmodem_send [] (List.replicate 16 0x43) 64 =
      some ⟨true, [EOT], List.replicate 14 0x43⟩ ∧
    xmodem_receive 128 [EOT] 64 =
      some ⟨false, [], List.replicate 16 0x43, []⟩ ∧
    round_trip ((List.range 1).map (fun i => (i + 3) % 256)) 128 64 = true ∧
    round_trip ((List.range 127).map (fun i => (i + 3) % 256)) 128 64 = true ∧
    round_trip ((List.range 128).map (fun i => (i + 3) % 256)) 128 64 = true ∧
    round_trip ((List.range 129).map (fun i => (i + 3) % 256)) 256 64 = true ∧
    round_trip ((List.range 300).map (fun i => (i + 3) % 256)) 384 64 = true := by
  refine ⟨?_, ?_, by decide, by decide, by decide, by decide, by decide,
    by decide, by decide⟩
  · intro src cap fuel hlen hcap hfuel
    have hne : src ≠ [] := List.ne_nil_of_length_pos (by omega)
    unfold round_trip
    rw [xmodem_send_wire src fuel hne hfuel,
      xmodem_receive_wire src cap fuel hne hcap hfuel]
    simp [pad_chunks_take src.length src le_rfl,
      pad_chunks_length src.length src le_rfl]
  · intro src cap fuel hlen hcap hfuel
    exact xmodem_receive_overflow src cap fuel
      (List.ne_nil_of_length_pos (by omega)) hcap hfuel

/-- C6: a validated block (correct number-and-complement, correct CRC)
carrying the next expected block number, whose 128 bytes would overflow the
destination capacity, makes the receiver send the cancel byte twice and
return failure, with the destination exactly as it was — none of the
block's bytes are appended. -/
theorem C6_overflow_abort (fuel maxLen retries blockNum total : Nat)
    (dest input out data rest : List Nat) (hi lo : Nat)
    (hret : retries < 16)
    (hrp : read_packet input = some (blockNum, 255 - blockNum, data, hi, lo, rest))
    (hcrc : crc16_ccitt data = hi <<< 8 ||| lo)
    (hover : maxLen < total + 128) :
    xr_run (fuel + 1) maxLen (.main retries) blockNum total dest input out =
      some ⟨false, dest, out ++ [CAN, CAN], rest⟩ := by
  rw [xr_run]
  rw [if_pos hret, hrp]
  simp [hcrc, hover]

/-- Witness for `C6_overflow_abort`: capacity 1, an all-zero first block —
the receiver cancels and stores nothing. -/
theorem C6_witness :
    xr_run 1 1 (.main 0) 1 0 []
        (1 :: 254 :: (List.replicate 128 0 ++ [0, 0])) [] =
      some ⟨false, [], [CAN, CAN], []⟩ := by
  have h := C6_overflow_abort 0 1 0 1 0 [] (1 :: 254 :: (List.replicate 128 0 ++ [0, 0]))
    [] (List.replicate 128 0) [] 0 0 (by decide) (by decide) (by decide) (by decide)
  simpa using h

/-- C7: a retransmitted block whose number equals the last accepted one
(`block_num - 1` as a byte) is acknowledged and the receiver proceeds to
wait for the next block, with the destination, the received byte count and
the expected block number all unchanged — the duplicate data is not
appended again. -/
theorem C7_duplicate_not_reappended (fuel maxLen retries blockNum total : Nat)
    (dest input out data rest : List Nat) (b2 hi lo : Nat)
    (hret : retries < 16)
    (hrp : read_packet input =
      some ((blockNum + 255) % 256, b2, data, hi, lo, rest)) :
    xr_run (fuel + 1) maxLen (.main retries) blockNum total dest input out =
      xr_run fuel maxLen (.step4 0) blockNum total dest rest (out ++ [ACK]) := by
  rw [xr_run]
  rw [if_pos hret, hrp]
  have hne : ¬ ((blockNum + 255) % 256 = blockNum ∧ b2 = 255 - blockNum) := by
    rintro ⟨h1, _⟩
    omega
  simp [hne]

/-- Witness for `C7_duplicate_not_reappended`: after block 1 was accepted
(`block_num = 2`, 128 bytes stored), a resend of block 1 is acknowledged,
nothing more is stored, and the following `EOT` ends the transfer with the
same 128 bytes. -/
theorem C7_witness :
    xr_run 2 500 (.main 0) 2 128 (List.replicate 128 7)
        ((1 :: 254 :: (List.replicate 128 9 ++ [0, 0])) ++ [EOT]) [] =
      some ⟨true, List.replicate 128 7, [ACK, ACK], []⟩ := by
  have h := C7_duplicate_not_reappended 1 500 0 2 128 (List.replicate 128 7)
    ((1 :: 254 :: (List.replicate 128 9 ++ [0, 0])) ++ [EOT]) []
    (List.replicate 128 9) [EOT] 254 0 0 (by decide) (by decide)
  rw [h]
  decide

/-! ## The HIDOS I/O bridge: the disk-read copy -/

/-- `memr2` of the HIDOS bridge: 16-bit little-endian RAM read through
`map_address`. -/
def memr2 (ram : Ram) (addr : Nat) : Nat :=
  ram (map_address addr) ||| (ram (map_address (addr + 1)) <<< 8)

/-- `memr4` of the HIDOS bridge: 32-bit little-endian RAM read. -/
def memr4 (ram : Ram) (addr : Nat) : Nat :=
  memr2 ram addr ||| (memr2 ram (addr + 2) <<< 16)

/-- Request-block field offset `IOADR` of the HIDOS mailbox. -/
def IOADR : Nat := 10

/-- Request-block field offset `IOSIZ` of the HIDOS mailbox. -/
def IOSIZ : Nat := 14

/-- The RAM indices the `io_disk` read command stores to:
`memcpy(ram + adr, disk_img + buf, siz)` writes the `siz` consecutive byte
indices from `adr` on — unlike every other RAM access of the monitor, with
no `map_address` wrap and no bound check against `RAM_SIZE`. -/
def io_disk_rd_targets (adr siz : Nat) : List Nat :=
  (List.range siz).map (fun i => adr + i)

/-- C10 does not hold of the code: the guest chooses the 32-bit target
address `adr` (read with `memr4` from the `IOADR` field of its request
block — the first conjunct shows a request block whose field decodes to
`0x20000`), and for `adr = RAM_SIZE`, `siz = 1` the one written index is
`0x20000 = RAM_SIZE`, outside `[0, RAM_SIZE)`: the `memcpy` writes past
the end of the `ram` array. -/
theorem C10_io_disk_out_of_bounds :
    memr4 (fun j => if j = 12 then 0x02 else 0) (0 + IOADR) = 0x20000 ∧
    io_disk_rd_targets 0x20000 1 = [0x20000] ∧
    ¬ (0x20000 < RAM_SIZE) :=
  ⟨by decide, by decide, by decide⟩

end Cradle86
